import Mathlib

/-!
Verification of the stackinator stack-synchronization engine.

This file gives a shallow embedding of the Go sources of the repository:

* `internal/stack/stack.go` — `GetStackChain`, `TopologicalSort`,
  `GetStackBranches`, `GetBaseBranch`;
* `internal/github/github.go` — `GetAllPRs`, `GetPRForBranch`;
* `cmd` sync command — `runSync` (fresh / resume / abort modes), including the
  rebase-mode closure, the polluted-history guard, the push closure and the
  resume-record config keys.

External `git` and `gh` subprocess results are modelled as oracle functions
(one field per primitive of the GitClient / GitHubClient interfaces); the git
config store is modelled as an association list from full key strings to
values, matching the semantics of `git config` get / set / unset.  Printing
(stdout, spinners, warnings) is not modelled, except that the polluted-history
recipe of commit prefixes is retained because a claim mentions it; error
message strings are kept but shortened to their first clause where the Go text
spans several lines.
-/

namespace Stackinator

/-- `strings.HasPrefix`, executed on the character list of the string (the
builtin `String.startsWith` is byte-position based and opaque to the kernel). -/
def strStartsWith (s p : String) : Bool := p.data.isPrefixOf s.data

/-- `strings.HasSuffix` on the character list. -/
def strEndsWith (s p : String) : Bool := p.data.reverse.isPrefixOf s.data.reverse

/-- The Go slice `s[n:]` on the character list. -/
def strDrop (s : String) (n : Nat) : String := ⟨s.data.drop n⟩

/-- The Go slice `s[:len(s)-n]` on the character list. -/
def strDropRight (s : String) (n : Nat) : String := ⟨(s.data.reverse.drop n).reverse⟩

/-- The Go slice `s[:n]` on the character list. -/
def strTake (s : String) (n : Nat) : String := ⟨s.data.take n⟩

/-- `strings.ToLower` on the character list. -/
def strToLower (s : String) : String := ⟨s.data.map Char.toLower⟩

/-- The white space predicate of `strings.TrimSpace`. -/
def isWsp (c : Char) : Bool := c = ' ' || c = '\n' || c = '\t' || c = '\r'

/-- `strings.TrimSpace` on the character list. -/
def strTrim (s : String) : String :=
  ⟨((s.data.dropWhile isWsp).reverse.dropWhile isWsp).reverse⟩

/-- Association list lookup with a default value; a Go map read returns the
zero value for a missing key, and `GetConfig` returns the empty string when
the underlying git command fails. -/
def alistGetD {α : Type} : List (String × α) → String → α → α
  | [], _, d => d
  | p :: ps, k, d => if p.fst == k then p.snd else alistGetD ps k d

/-- Association list update: replace the first binding of the key, else append
a new binding at the end (Go map assignment on the unique-key lists we build). -/
def alistSet {α : Type} : List (String × α) → String → α → List (String × α)
  | [], k, v => [(k, v)]
  | p :: ps, k, v => if p.fst == k then (k, v) :: ps else p :: alistSet ps k v

/-- Does the association list bind the key? -/
def alistHas {α : Type} (m : List (String × α)) (k : String) : Bool :=
  m.any (fun p => p.fst == k)

/-- Option-valued lookup (Go two-result map read `v, ok := m[k]`). -/
def alistFind? {α : Type} : List (String × α) → String → Option α
  | [], _ => none
  | p :: ps, k => if p.fst == k then some p.snd else alistFind? ps k

/-- String-valued lookup defaulting to the empty string, the zero value of a
Go `map[string]string` read. -/
def lookupD (m : List (String × String)) (k : String) : String :=
  alistGetD m k ""

theorem alistGetD_set_self {α : Type} (m : List (String × α)) (k : String) (v d : α) :
    alistGetD (alistSet m k v) k d = v := by
  induction m with
  | nil => simp [alistSet, alistGetD]
  | cons p ps ih =>
    by_cases h : p.fst == k
    · simp [alistSet, alistGetD, h]
    · simp [alistSet, alistGetD, h, ih]

theorem alistGetD_set_ne {α : Type} (m : List (String × α)) (k k' : String) (v d : α)
    (h : k' ≠ k) : alistGetD (alistSet m k v) k' d = alistGetD m k' d := by
  induction m with
  | nil =>
    simp only [alistSet, alistGetD]
    have : (k == k') = false := by
      simp only [beq_eq_false_iff_ne, ne_eq]
      exact fun hk => h hk.symm
    simp [this]
  | cons p ps ih =>
    by_cases hp : p.fst == k
    · have hpk : p.fst = k := by simpa using hp
      have : (k == k') = false := by
        simp only [beq_eq_false_iff_ne, ne_eq]
        exact fun hk => h hk.symm
      simp [alistSet, alistGetD, hp, this, hpk]
    · simp [alistSet, alistGetD, hp, ih]

/-- If a defaulted lookup differs from the default, the returned value occurs
among the values of the list. -/
theorem lookupD_mem_values (m : List (String × String)) (k : String)
    (h : lookupD m k ≠ "") : lookupD m k ∈ m.map Prod.snd := by
  induction m with
  | nil => simp [lookupD, alistGetD] at h
  | cons p ps ih =>
    by_cases hp : p.fst == k
    · simp [lookupD, alistGetD, hp]
    · have h' : lookupD ps k ≠ "" := by
        simpa [lookupD, alistGetD, hp] using h
      have := ih h'
      simp only [lookupD, alistGetD, hp] at *
      simp [this, ih h']

/-- If a first-match lookup with distinct keys is wanted: a binding that is in
a list whose keys are nodup determines the lookup result. -/
theorem lookupD_eq_of_mem (m : List (String × String)) (k v : String)
    (hnd : (m.map Prod.fst).Nodup) (hmem : (k, v) ∈ m) : lookupD m k = v := by
  induction m with
  | nil => simp at hmem
  | cons p ps ih =>
    simp only [List.map_cons, List.nodup_cons] at hnd
    rcases List.mem_cons.mp hmem with h | h
    · simp [lookupD, alistGetD, ← h]
    · have hk : p.fst ≠ k := by
        intro he
        exact hnd.1 (he ▸ (List.mem_map.mpr ⟨(k, v), h, rfl⟩))
      have hb : (p.fst == k) = false := by simpa using hk
      have hv := ih hnd.2 h
      simpa [lookupD, alistGetD, hb] using hv

/-- A positive defaulted-to-zero integer lookup exhibits an actual binding. -/
theorem alistGetD_int_pos_mem (m : List (String × Int)) (k : String)
    (h : 1 ≤ alistGetD m k 0) : ∃ p ∈ m, p.fst = k ∧ 1 ≤ p.snd := by
  induction m with
  | nil => simp [alistGetD] at h
  | cons p ps ih =>
    by_cases hp : p.fst == k
    · have : alistGetD (p :: ps) k 0 = p.snd := by simp [alistGetD, hp]
      exact ⟨p, List.mem_cons_self p ps, by simpa using hp, this ▸ h⟩
    · have h' : 1 ≤ alistGetD ps k 0 := by simpa [alistGetD, hp] using h
      obtain ⟨q, hq, hqk, hqv⟩ := ih h'
      exact ⟨q, List.mem_cons_of_mem _ hq, hqk, hqv⟩

/-- Insertion of a string into a sorted list (helper for the deterministic
queue sort `sort.Strings` of the Go topological sort). -/
def insertSorted (x : String) : List String → List String
  | [] => [x]
  | y :: ys => if x ≤ y then x :: y :: ys else y :: insertSorted x ys

/-- Insertion sort on strings, modelling `sort.Strings`. -/
def sortStrings : List String → List String
  | [] => []
  | x :: xs => insertSorted x (sortStrings xs)

theorem length_insertSorted (x : String) (l : List String) :
    (insertSorted x l).length = l.length + 1 := by
  induction l with
  | nil => rfl
  | cons y ys ih =>
    by_cases h : x ≤ y
    · simp [insertSorted, h]
    · simp [insertSorted, h, ih]

theorem length_sortStrings (l : List String) :
    (sortStrings l).length = l.length := by
  induction l with
  | nil => rfl
  | cons x xs ih => simp [sortStrings, length_insertSorted, ih]

theorem mem_insertSorted (x a : String) (l : List String) :
    a ∈ insertSorted x l ↔ a = x ∨ a ∈ l := by
  induction l with
  | nil => simp [insertSorted]
  | cons y ys ih =>
    by_cases h : x ≤ y
    · simp [insertSorted, h]
    · simp only [insertSorted, if_neg h, List.mem_cons, ih]
      tauto

theorem mem_sortStrings (a : String) (l : List String) :
    a ∈ sortStrings l ↔ a ∈ l := by
  induction l with
  | nil => simp [sortStrings]
  | cons x xs ih => simp [sortStrings, mem_insertSorted, ih]

/-- A branch in a stack, as in `internal/stack/stack.go`.  The `Exists` field
of the Go struct is always set to `true` and never consulted by the code under
verification, so it is omitted. -/
structure StackBranch where
  name : String
  parent : String
deriving DecidableEq, Repr

/-- GetStackBranches derives one `StackBranch` per parent edge; the Go code
iterates the parent map obtained from `GetAllStackParents`.  We keep the
association-list order, which is a deterministic representative of the Go map
iteration order (none of the verified results depend on this order). -/
def toStackBranches (parents : List (String × String)) : List StackBranch :=
  parents.map (fun p => { name := p.fst, parent := p.snd })

/-- The parent-chain walk of `GetStackChain`.  The Go loop maintains a `seen`
set and fails on revisiting a branch.  The propositional arguments (`current`
lies in the finite domain `dom`, `seen` is duplicate-free and inside `dom`)
and the fuel `n` are termination bookkeeping only: the fuel provably cannot
run out (the zero-fuel recursion branch is `False.elim`), so every runtime
branch of the Go loop is mirrored exactly. -/
def chainWalk (parents : List (String × String)) (dom : List String)
    (hdom : ∀ v ∈ parents.map Prod.snd, v ∈ dom) :
    (n : Nat) → (current : String) → (seen chain : List String) →
    dom.length - seen.length ≤ n → current ∈ dom → seen.Nodup →
    (∀ x ∈ seen, x ∈ dom) → Except String (List String)
  | 0, current, seen, chain, hn, hc, hnd, hsub =>
    if hmem : current ∈ seen then
      .error ("circular dependency detected in stack at " ++ current)
    else
      if hp : lookupD parents current = "" then .ok (current :: chain)
      else
        False.elim (by
          have h1 : (current :: seen).Nodup := List.nodup_cons.mpr ⟨hmem, hnd⟩
          have h2 : (current :: seen) ⊆ dom := by
            intro x hx
            rcases List.mem_cons.mp hx with h | h
            · exact h ▸ hc
            · exact hsub x h
          have h3 := (List.subperm_of_subset h1 h2).length_le
          simp only [List.length_cons] at h3
          omega)
  | m + 1, current, seen, chain, hn, hc, hnd, hsub =>
    if hmem : current ∈ seen then
      .error ("circular dependency detected in stack at " ++ current)
    else
      if hp : lookupD parents current = "" then .ok (current :: chain)
      else
        chainWalk parents dom hdom m (lookupD parents current)
          (current :: seen) (current :: chain)
          (by
            have h1 : (current :: seen).Nodup := List.nodup_cons.mpr ⟨hmem, hnd⟩
            have h2 : (current :: seen) ⊆ dom := by
              intro x hx
              rcases List.mem_cons.mp hx with h | h
              · exact h ▸ hc
              · exact hsub x h
            have h3 := (List.subperm_of_subset h1 h2).length_le
            simp only [List.length_cons] at h3 ⊢
            omega)
          (hdom _ (lookupD_mem_values parents current hp))
          (List.nodup_cons.mpr ⟨hmem, hnd⟩)
          (fun x hx => by
            rcases List.mem_cons.mp hx with h | h
            · exact h ▸ hc
            · exact hsub x h)

/-- `GetStackChain` from `internal/stack/stack.go`: empty chain when the
branch has no parent edge, otherwise walk the parent chain from the branch up,
prepending each visited branch, stopping at a branch without a parent edge and
failing when a branch repeats. -/
def GetStackChain (parents : List (String × String)) (branch : String) :
    Except String (List String) :=
  if lookupD parents branch == "" then .ok []
  else
    chainWalk parents (branch :: parents.map Prod.snd)
      (fun v hv => List.mem_cons_of_mem _ hv)
      (branch :: parents.map Prod.snd).length branch [] []
      (by omega) (List.mem_cons_self _ _) List.nodup_nil
      (fun x hx => absurd hx (List.not_mem_nil x))

/-- Sum of the nonnegative parts of the in-degree table, the termination
measure of the Kahn drain loop. -/
def degSum (deg : List (String × Int)) : Nat :=
  (deg.map (fun p => p.snd.toNat)).sum

/-- Add `d` to the recorded in-degree of `k` (Go `inDegree[child]--` /
`inDegree[b.Name]++`, where a missing key reads as zero). -/
def bumpInt (m : List (String × Int)) (k : String) (d : Int) : List (String × Int) :=
  alistSet m k (alistGetD m k 0 + d)

theorem degSum_set (m : List (String × Int)) (k : String) (v : Int) :
    degSum (alistSet m k v) + (alistGetD m k 0).toNat = degSum m + v.toNat := by
  induction m with
  | nil => simp [alistSet, alistGetD, degSum]
  | cons p ps ih =>
    by_cases h : p.fst == k
    · simp only [alistSet, h, if_pos, alistGetD, degSum, List.map_cons, List.sum_cons]
      omega
    · simp only [alistSet, h, if_neg, Bool.false_eq_true, not_false_iff, alistGetD, degSum,
        List.map_cons, List.sum_cons]
      simp only [degSum] at ih
      omega

/-- One pass over the children of a popped node: decrement each in-degree and
enqueue the child when its in-degree reaches exactly zero.  Mirrors the inner
`for _, child := range children[current]` loop of `TopologicalSort`. -/
def processChildren : List String → List (String × Int) → List String →
    List (String × Int) × List String
  | [], deg, q => (deg, q)
  | c :: cs, deg, q =>
    let deg2 := bumpInt deg c (-1)
    let q2 := if alistGetD deg2 c 0 = 0 then q ++ [c] else q
    processChildren cs deg2 q2

theorem processChildren_measure (cs : List String) (deg : List (String × Int))
    (q : List String) :
    (processChildren cs deg q).snd.length + degSum (processChildren cs deg q).fst ≤
      q.length + degSum deg := by
  induction cs generalizing deg q with
  | nil => simp [processChildren]
  | cons c cs ih =>
    simp only [processChildren]
    have hget : alistGetD (bumpInt deg c (-1)) c 0 = alistGetD deg c 0 + (-1) := by
      simp [bumpInt, alistGetD_set_self]
    have hsum : degSum (bumpInt deg c (-1)) + (alistGetD deg c 0).toNat
        = degSum deg + (alistGetD deg c 0 + (-1)).toNat := by
      simpa [bumpInt] using degSum_set deg c (alistGetD deg c 0 + (-1))
    by_cases hz : alistGetD (bumpInt deg c (-1)) c 0 = 0
    · rw [if_pos hz]
      have hih := ih (bumpInt deg c (-1)) (q ++ [c])
      have hlen : (q ++ [c]).length = q.length + 1 := by simp
      omega
    · rw [if_neg hz]
      have hih := ih (bumpInt deg c (-1)) q
      omega

/-- The Kahn drain loop of `TopologicalSort`: sort the queue, pop the least
name, append it to the output when it is a stack branch, then decrement its
children.  Returns the output list together with the final in-degree table
(consulted by the cycle check).  The fuel `n` bounds the loop by the strictly
decreasing measure `queue.length + degSum deg` and provably cannot run out. -/
def drain (ch : List (String × List String)) (bm : List (String × StackBranch)) :
    (n : Nat) → (deg : List (String × Int)) → (queue : List String) →
    (sorted : List StackBranch) → queue.length + degSum deg ≤ n →
    List StackBranch × List (String × Int)
  | n, deg, queue, sorted, hn =>
    match hq : sortStrings queue with
    | [] => (sorted, deg)
    | current :: rest =>
      let sorted2 :=
        match alistFind? bm current with
        | some b => sorted ++ [b]
        | none => sorted
      have hlen : queue.length = rest.length + 1 := by
        have := length_sortStrings queue
        rw [hq] at this
        simpa using this.symm
      match n with
      | 0 => False.elim (by omega)
      | m + 1 =>
        drain ch bm m (processChildren (alistGetD ch current []) deg rest).fst
          (processChildren (alistGetD ch current []) deg rest).snd sorted2
          (by
            have := processChildren_measure (alistGetD ch current []) deg rest
            omega)

/-- Seed a zero entry for a key not yet in the in-degree table
(`if _, exists := inDegree[k]; !exists { inDegree[k] = 0 }`). -/
def ensureKey (m : List (String × Int)) (k : String) : List (String × Int) :=
  if alistHas m k then m else m ++ [(k, 0)]

/-- One step of the map-building loop of `TopologicalSort` (Go lines that fill
`branchMap`, seed `inDegree` entries for the branch and its parent, extend
`children` and bump the in-degree of the child). -/
def kahnStep (st : (List (String × List String)) × (List (String × Int)) ×
    (List (String × StackBranch))) (b : StackBranch) :
    (List (String × List String)) × (List (String × Int)) × (List (String × StackBranch)) :=
  (alistSet st.1 b.parent (alistGetD st.1 b.parent [] ++ [b.name]),
   bumpInt (ensureKey (ensureKey st.2.1 b.name) b.parent) b.name 1,
   alistSet st.2.2 b.name b)

/-- The map-building pass of `TopologicalSort`. -/
def kahnBuild (branches : List StackBranch) :
    (List (String × List String)) × (List (String × Int)) × (List (String × StackBranch)) :=
  branches.foldl kahnStep ([], [], [])

/-- The initial queue: every key of the children map whose in-degree is zero
(`for parent := range children`).  The Go map iteration order is erased by the
sort at the top of each drain iteration, so list order is irrelevant. -/
def initQueue (ch : List (String × List String)) (deg : List (String × Int)) :
    List String :=
  (ch.map Prod.fst).filter (fun p => alistGetD deg p 0 == 0)

/-- `TopologicalSort` from `internal/stack/stack.go`: Kahn over the parent
edges, queue kept sorted for determinism, error when a stack branch never
drains to in-degree zero. -/
def TopologicalSort (branches : List StackBranch) :
    Except String (List StackBranch) :=
  let maps := kahnBuild branches
  let q0 := initQueue maps.1 maps.2.1
  let res := drain maps.1 maps.2.2 (q0.length + degSum maps.2.1) maps.2.1 q0 [] (by omega)
  match res.snd.find? (fun p => decide (0 < p.snd) && alistHas maps.2.2 p.fst) with
  | some p => .error ("circular dependency detected involving " ++ p.fst)
  | none => .ok res.fst

/-- `GetAllStackParents` discovers the parent edges by listing all config keys
of the shape `branch.<name>.stackparent` and stripping the prefix and suffix.
We derive the same mapping from the modelled config store. -/
def getAllStackParents (cfg : List (String × String)) : List (String × String) :=
  cfg.filterMap (fun p =>
    if strStartsWith p.fst "branch." && strEndsWith p.fst ".stackparent" then
      some (strDropRight (strDrop p.fst 7) 12, p.snd)
    else none)

/-- `GetBaseBranch`: the configured `stack.baseBranch`, else the detected
default branch (an oracle input in this model). -/
def getBaseBranch (cfg : List (String × String)) (defaultBranch : String) : String :=
  let base := alistGetD cfg "stack.baseBranch" ""
  if base == "" then defaultBranch else base

/-- A parsed record of the JSON array produced by
`gh pr list --state all --json number,state,headRefName,baseRefName,title,url,mergeStateStatus`. -/
structure RawPR where
  number : Int
  state : String
  headRefName : String
  baseRefName : String
  title : String
  url : String
  mergeStateStatus : String
deriving DecidableEq, Repr

/-- `PRInfo` from `internal/github/github.go`. -/
structure PRInfo where
  number : Int
  state : String
  base : String
  title : String
  url : String
  mergeStateStatus : String
deriving DecidableEq, Repr

/-- Conversion performed by `GetAllPRs` for each list entry. -/
def rawToInfo (pr : RawPR) : PRInfo :=
  { number := pr.number, state := pr.state, base := pr.baseRefName,
    title := pr.title, url := pr.url, mergeStateStatus := pr.mergeStateStatus }

/-- The map-building loop of `GetAllPRs`: `prMap[pr.HeadRefName] = &PRInfo{...}`
for each record in list order, so a later record for the same head branch
overwrites an earlier one. -/
def buildPRMap (prs : List RawPR) : List (String × PRInfo) :=
  prs.foldl (fun m pr => alistSet m pr.headRefName (rawToInfo pr)) []

/-- The cache lookup `prCache[branch]` used by the sync engine. -/
def prLookup (m : List (String × PRInfo)) (branch : String) : Option PRInfo :=
  alistFind? m branch

/-- The literal arguments `GetAllPRs` passes to the `gh` CLI; note the
`--state all` filter. -/
def getAllPRsArgs : List String :=
  ["pr", "list", "--state", "all",
   "--json", "number,state,headRefName,baseRefName,title,url,mergeStateStatus",
   "--limit", "1000"]

/-- `GetAllPRs`: the subprocess-and-parse outcome is an oracle input (an
already parsed record list on success); on success the branch-to-PR map is
built record by record. -/
def GetAllPRs (ghResult : Except String (List RawPR)) :
    Except String (List (String × PRInfo)) :=
  match ghResult with
  | .error e => .error ("failed to list PRs: " ++ e)
  | .ok prs => .ok (buildPRMap prs)

/-- `GetPRForBranch`: `ghRun` is the result of the `gh pr view` subprocess and
`parse` models `json.Unmarshal` on its stdout.  A subprocess failure is
swallowed and reported as `(nil, nil)`; only a parse failure yields an error. -/
def GetPRForBranch (ghRun : Except String String)
    (parse : String → Except String RawPR) : Except String (Option PRInfo) :=
  match ghRun with
  | .error _ => .ok none
  | .ok out =>
    match parse out with
    | .error e => .error ("failed to parse PR info: " ++ e)
    | .ok d => .ok (some (rawToInfo d))

/-- Observable side effects of the sync engine: every git or gh command the
engine issues (attempted commands are recorded whether or not they succeed).
Config reads and writes are tracked in the config store instead. -/
inductive Effect where
  | fetchAll
  | fetchBranch (branch : String)
  | checkout (branch : String)
  | stashPush
  | stashPop
  | resetToRemote (branch : String)
  | rebasePlain (target : String)
  | rebaseOnto (newBase oldBase branch : String)
  | pushLease (branch : String) (lease : Bool)
  | pushExpected (branch sha : String)
  | forcePushEff (branch : String)
  | abortRebaseEff
  | abortCherryPickEff
  | updatePRBase (number : Int) (base : String)
deriving DecidableEq, Repr

/-- Oracle for the GitClient interface: one field per primitive the sync
engine calls, each recording the (deterministic) outcome the underlying git
subprocess would produce. -/
structure GitOracle where
  currentBranch : Except String String
  workingTreeClean : Except String Bool
  defaultBranch : String
  fetchOk : Bool
  checkoutOk : String → Bool
  stashOk : Bool
  stashPopOk : Bool
  setConfigOk : String → Bool
  unsetConfigOk : String → Bool
  remoteBranches : List String
  worktrees : Except String (List (String × String))
  currentWorktreePath : Except String String
  fetchBranchOk : String → Bool
  commitHash : String → Except String String
  mergeBase : String → String → Except String String
  uniqueCommitsByPatch : String → String → Except String (List String)
  uniqueCommits : String → String → Except String (List String)
  rebaseOk : String → Bool
  rebaseOntoOk : String → String → String → Bool
  resetToRemoteOk : String → Bool
  pushOk : String → Bool → Bool
  pushExpectedOk : String → String → Bool
  forcePushOk : String → Bool
  cherryPickInProgress : Bool
  rebaseInProgress : Bool
  abortRebaseOk : Bool
  abortCherryPickOk : Bool

/-- Oracle for the GitHubClient interface. -/
structure HubOracle where
  allPRs : Except String (List RawPR)
  updatePRBaseOk : Int → String → Bool

/-- The sync flags `--force`, `--resume`, `--abort`. -/
structure SyncFlags where
  force : Bool
  resume : Bool
  abort : Bool
deriving DecidableEq, Repr

/-- Mutable engine state: the git config store plus the trace of issued
commands, in execution order. -/
structure EngineSt where
  config : List (String × String)
  trace : List Effect
deriving Repr

/-- Record one issued command. -/
def emit (st : EngineSt) (e : Effect) : EngineSt :=
  { st with trace := st.trace ++ [e] }

/-- `SetConfig`: on success the store is updated; the boolean reports success
so callers can mirror the Go error handling. -/
def doSetConfig (git : GitOracle) (st : EngineSt) (k v : String) : EngineSt × Bool :=
  if git.setConfigOk k then ({ st with config := alistSet st.config k v }, true)
  else (st, false)

/-- `UnsetConfig`: on success the binding is removed. -/
def doUnsetConfig (git : GitOracle) (st : EngineSt) (k : String) : EngineSt × Bool :=
  if git.unsetConfigOk k then
    ({ st with config := st.config.filter (fun p => p.fst != k) }, true)
  else (st, false)

/-- The config keys of the resume record (`cmd` sync command constants). -/
def configSyncStashed : String := "stack.sync.stashed"

/-- The original-branch key of the resume record. -/
def configSyncOriginalBranch : String := "stack.sync.originalBranch"

/-- Outcome of the rebase closure passed to the spinner in the per-branch
loop.  `polluted` is the distinctive polluted-history failure (the closure
also prints the cherry-pick recipe, retained here as `recipe`); `gitFailed`
is a failing rebase command (a conflict); both set the `rebaseConflict` flag
in the caller. -/
inductive RebaseRes where
  | rebOk
  | polluted (nAll nUnique : Nat) (recipe : List String)
  | gitFailed
deriving DecidableEq, Repr

/-- Commands issued plus result of the rebase closure. -/
structure RebaseStepOut where
  acts : List Effect
  res : RebaseRes
deriving DecidableEq, Repr

/-- The guard `err == nil && mergeBase == rebaseTargetHash` deciding a plain
rebase when the parent has not moved. -/
def hashEqCheck (git : GitOracle) (target mb : String) : Bool :=
  match git.commitHash target with
  | .ok h => mb == h
  | .error _ => false

/-- The commit prefixes printed by the polluted-history recipe: the first
five patch-unique commits, eight characters each. -/
def pollutedRecipe (uniqueCommits : List String) : List String :=
  (uniqueCommits.take 5).map (fun c => strTake c 8)

/-- The rebase closure of the per-branch loop: `--onto` over a collapsed
merged parent, else patch-unique commits decide between skipping, a plain
rebase, the polluted-history rejection, and `--onto` from the merge-base.
Failing auxiliary queries fall back to a plain rebase exactly as in the Go
code. -/
def rebaseStep (git : GitOracle) (rebaseTarget oldParent bname : String) : RebaseStepOut :=
  let plainOut : RebaseStepOut :=
    { acts := [.rebasePlain rebaseTarget],
      res := if git.rebaseOk rebaseTarget then .rebOk else .gitFailed }
  let ontoOut : String → RebaseStepOut := fun base =>
    { acts := [.rebaseOnto rebaseTarget base bname],
      res := if git.rebaseOntoOk rebaseTarget base bname then .rebOk else .gitFailed }
  if oldParent != "" then ontoOut oldParent
  else
    match git.uniqueCommitsByPatch rebaseTarget bname with
    | .error _ => plainOut
    | .ok uniqueCommits =>
      if uniqueCommits.isEmpty then { acts := [], res := .rebOk }
      else
        match git.mergeBase bname rebaseTarget with
        | .error _ => plainOut
        | .ok mb =>
          if hashEqCheck git rebaseTarget mb then plainOut
          else
            match git.uniqueCommits mb bname with
            | .ok allCommits =>
              if allCommits.length > uniqueCommits.length * 2 then
                { acts := [],
                  res := .polluted allCommits.length uniqueCommits.length
                    (pollutedRecipe uniqueCommits) }
              else ontoOut mb
            | .error _ => ontoOut mb

/-- Commands issued plus result of the push closure. -/
structure PushStepOut where
  acts : List Effect
  ok : Bool
deriving DecidableEq, Repr

/-- The push closure: unconditional `--force` under the force flag; otherwise
refresh the tracking ref, read the remote SHA and push with an explicit
`--force-with-lease=refs/heads/branch:sha`, falling back to a plain
force-with-lease push when the refresh or the SHA read fails. -/
def pushStep (git : GitOracle) (force : Bool) (bname : String) : PushStepOut :=
  if force then { acts := [.forcePushEff bname], ok := git.forcePushOk bname }
  else
    if !git.fetchBranchOk bname then
      { acts := [.fetchBranch bname, .pushLease bname true], ok := git.pushOk bname true }
    else
      match git.commitHash ("origin/" ++ bname) with
      | .error _ =>
        { acts := [.fetchBranch bname, .pushLease bname true], ok := git.pushOk bname true }
      | .ok remoteSha =>
        { acts := [.fetchBranch bname, .pushExpected bname remoteSha],
          ok := git.pushExpectedOk bname remoteSha }

/-- The rebase-target selection: the local ref of a stack-branch parent, the
remote copy of a base-branch parent. -/
def chooseRebaseTarget (stackBranchSet : List String) (parent : String) : String :=
  if stackBranchSet.contains parent then parent else "origin/" ++ parent

/-- The reconcile-with-remote phase of one branch iteration (skipped under
the force flag): fast-forward a strictly-behind local branch, leave an ahead
or diverged branch alone. -/
def reconcileRemote (git : GitOracle) (force : Bool) (existsOnRemote : Bool)
    (st : EngineSt) (bname : String) : Except (EngineSt × String) EngineSt :=
  if existsOnRemote && !force then
    match git.commitHash bname with
    | .error e => .error (st, "failed to get local commit hash: " ++ e)
    | .ok localHash =>
      match git.commitHash ("origin/" ++ bname) with
      | .error e => .error (st, "failed to get remote commit hash: " ++ e)
      | .ok remoteHash =>
        if localHash != remoteHash then
          match git.mergeBase bname ("origin/" ++ bname) with
          | .error e => .error (st, "failed to get merge base: " ++ e)
          | .ok mb =>
            if mb == remoteHash then .ok st
            else if mb == localHash then
              let st2 := emit st (.resetToRemote bname)
              if git.resetToRemoteOk bname then .ok st2
              else .error (st2, "failed to fast-forward")
            else .ok st
        else .ok st
  else .ok st

/-- The PR-base reconciliation at the end of one branch iteration; the edit
outcome is only warned about, so the attempt itself is the observable. -/
def prBaseStep (prCache : List (String × PRInfo)) (bname parent : String)
    (st : EngineSt) : EngineSt :=
  match prLookup prCache bname with
  | some pr => if pr.base != parent then emit st (.updatePRBase pr.number parent) else st
  | none => st

/-- Result of one branch iteration: continue with the next branch, or abort
the whole sync with an error message and the rebase-conflict flag. -/
inductive LoopRes where
  | cont (st : EngineSt)
  | fail (st : EngineSt) (msg : String) (conflict : Bool)
deriving Repr

/-- The collapse-merged-ancestor phase of one branch iteration: when the
parent PR is merged, remember the old parent, rewrite the parent edge to the
grandparent (base branch when no grandparent edge exists) and update the
in-memory parent on config-write success. -/
def collapsePhase (git : GitOracle) (prCache : List (String × PRInfo))
    (st0 : EngineSt) (b0 : StackBranch) : String × StackBranch × EngineSt :=
  match prLookup prCache b0.parent with
  | some pp =>
    if pp.state == "MERGED" then
      let gp0 := alistGetD st0.config ("branch." ++ b0.parent ++ ".stackparent") ""
      let gp := if gp0 == "" then getBaseBranch st0.config git.defaultBranch else gp0
      let s := doSetConfig git st0 ("branch." ++ b0.name ++ ".stackparent") gp
      if s.snd then (b0.parent, { b0 with parent := gp }, s.fst)
      else (b0.parent, b0, s.fst)
    else ("", b0, st0)
  | none => ("", b0, st0)

/-- The body of one branch iteration after the merged-branch skip: collapse a
merged ancestor, check out, reconcile with the remote, rebase, push, fix the
PR base. -/
def processBranchMain (git : GitOracle) (force : Bool)
    (prCache : List (String × PRInfo)) (stackBranchSet remoteBranches : List String)
    (st0 : EngineSt) (b0 : StackBranch) : LoopRes :=
  let collapse := collapsePhase git prCache st0 b0
  let oldParent := collapse.1
  let b := collapse.2.1
  let st1 := emit collapse.2.2 (.checkout b.name)
  if !git.checkoutOk b.name then .fail st1 ("failed to checkout " ++ b.name) false
  else
    let hasLocalRef := remoteBranches.contains b.name
    let exists0 := hasLocalRef || (prLookup prCache b.name).isSome
    let fetchPhase : Bool × EngineSt :=
      if exists0 && !hasLocalRef then
        let st2 := emit st1 (.fetchBranch b.name)
        if git.fetchBranchOk b.name then (true, st2) else (false, st2)
      else (exists0, st1)
    let branchExistsOnRemote := fetchPhase.1
    match reconcileRemote git force branchExistsOnRemote fetchPhase.2 b.name with
    | .error e => .fail e.fst e.snd false
    | .ok st3 =>
      let rebaseTarget := chooseRebaseTarget stackBranchSet b.parent
      let rs := rebaseStep git rebaseTarget oldParent b.name
      let st4 : EngineSt := { st3 with trace := st3.trace ++ rs.acts }
      match rs.res with
      | .polluted _ _ _ => .fail st4 "failed to rebase" true
      | .gitFailed => .fail st4 "failed to rebase" true
      | .rebOk =>
        if branchExistsOnRemote then
          let ps := pushStep git force b.name
          let st5 : EngineSt := { st4 with trace := st4.trace ++ ps.acts }
          if !ps.ok then .fail st5 ("push failed for " ++ b.name) false
          else .cont (prBaseStep prCache b.name b.parent st5)
        else .cont (prBaseStep prCache b.name b.parent st4)

/-- One branch iteration: a branch whose own PR is merged is unhooked from
the stack and skipped, everything else goes through the main body. -/
def processBranch (git : GitOracle) (force : Bool) (prCache : List (String × PRInfo))
    (stackBranchSet remoteBranches : List String) (st : EngineSt) (b : StackBranch) :
    LoopRes :=
  match prLookup prCache b.name with
  | some pr =>
    if pr.state == "MERGED" then
      .cont (doUnsetConfig git st ("branch." ++ b.name ++ ".stackparent")).fst
    else processBranchMain git force prCache stackBranchSet remoteBranches st b
  | none => processBranchMain git force prCache stackBranchSet remoteBranches st b

/-- The per-branch loop over the topologically sorted stack. -/
def processLoop (git : GitOracle) (force : Bool) (prCache : List (String × PRInfo))
    (stackBranchSet remoteBranches : List String) :
    EngineSt → List StackBranch → LoopRes
  | st, [] => .cont st
  | st, b :: bs =>
    match processBranch git force prCache stackBranchSet remoteBranches st b with
    | .cont st2 => processLoop git force prCache stackBranchSet remoteBranches st2 bs
    | r => r

/-- Exit kind of the sync body: `done` reached the end of the loop (the Go
`success` flag is set), `earlyOk` returned nil before the loop ran to
completion (declined opt-in prompt, empty stack), `failed` is an error return
carrying the rebase-conflict flag consulted by the deferred cleanup. -/
inductive SyncExit where
  | done (st : EngineSt)
  | earlyOk (st : EngineSt)
  | failed (st : EngineSt) (msg : String) (conflict : Bool)
deriving Repr

/-- Everything of `runSync` between the mode setup and the deferred cleanup:
opt-in prompt, parallel prelude (fetch joined with the bulk PR load), chain
and topological sort, worktree precondition, the per-branch loop, and the
final checkout of the original branch.  The status display after the loop
performs no mutation and is not modelled. -/
def runSyncCore (git : GitOracle) (hub : HubOracle) (fl : SyncFlags)
    (promptInput : Except String String) (originalBranch : String)
    (st0 : EngineSt) : SyncExit :=
  let baseBranch := getBaseBranch st0.config git.defaultBranch
  let parentCfg := alistGetD st0.config ("branch." ++ originalBranch ++ ".stackparent") ""
  let afterPrompt : SyncExit ⊕ EngineSt :=
    if parentCfg == "" && originalBranch != baseBranch then
      match promptInput with
      | .error e => .inl (.failed st0 ("failed to read input: " ++ e) false)
      | .ok input =>
        let t := strTrim (strToLower input)
        if t != "" && t != "y" && t != "yes" then .inl (.earlyOk st0)
        else
          let s := doSetConfig git st0 ("branch." ++ originalBranch ++ ".stackparent") baseBranch
          if s.snd then .inr s.fst
          else .inl (.failed s.fst "failed to set parent" false)
    else .inr st0
  match afterPrompt with
  | .inl ex => ex
  | .inr st1 =>
    let st2 := emit st1 .fetchAll
    let prResult := GetAllPRs hub.allPRs
    let parents := getAllStackParents st2.config
    match GetStackChain parents originalBranch with
    | .error e => .failed st2 ("failed to get stack chain: " ++ e) false
    | .ok chain =>
      if chain.isEmpty then .earlyOk st2
      else
        let stackBranches := (toStackBranches parents).filter (fun b => chain.contains b.name)
        match TopologicalSort stackBranches with
        | .error e => .failed st2 ("failed to sort branches: " ++ e) false
        | .ok sorted =>
          let wt := match git.worktrees with | .ok l => l | .error _ => []
          let cwp := match git.currentWorktreePath with | .ok p => p | .error _ => ""
          match sorted.find? (fun b =>
              match alistFind? wt b.name with
              | some path => path != cwp
              | none => false) with
          | some b =>
            .failed st2 ("cannot sync: branch " ++ b.name ++ " is checked out in a worktree") false
          | none =>
            if !git.fetchOk then .failed st2 "failed to fetch" false
            else
              let prCache := match prResult with | .ok m => m | .error _ => []
              let stackBranchSet := stackBranches.map (fun b => b.name)
              match processLoop git fl.force prCache stackBranchSet git.remoteBranches st2 sorted with
              | .fail st msg conflict => .failed st msg conflict
              | .cont st3 => .done (emit st3 (.checkout originalBranch))

/-- The resume-mode entry: fail without a resume record, else adopt the saved
original branch; the in-memory stash flag is assigned the literal `true`. -/
def resumeSetup (savedStashed savedOriginalBranch : String) :
    Except String (String × Bool) :=
  if savedStashed == "true" || savedOriginalBranch != "" then
    .ok (savedOriginalBranch, true)
  else .error "no interrupted sync to resume"

/-- The fresh-mode entry: wipe stale state, record the current branch in the
resume record, stash a dirty tree and record the stash flag. -/
def freshSetup (git : GitOracle) (hasSavedState : Bool) (st0 : EngineSt) :
    (Except String (String × Bool)) × EngineSt :=
  let stA :=
    if hasSavedState then
      let u1 := doUnsetConfig git st0 configSyncStashed
      (doUnsetConfig git u1.fst configSyncOriginalBranch).fst
    else st0
  match git.currentBranch with
  | .error e => (.error ("failed to get current branch: " ++ e), stA)
  | .ok originalBranch =>
    let stB := (doSetConfig git stA configSyncOriginalBranch originalBranch).fst
    match git.workingTreeClean with
    | .error e => (.error ("failed to check working tree status: " ++ e), stB)
    | .ok clean =>
      if clean then (.ok (originalBranch, false), stB)
      else
        let stC := emit stB .stashPush
        if !git.stashOk then (.error "failed to stash changes", stC)
        else (.ok (originalBranch, true), (doSetConfig git stC configSyncStashed "true").fst)

/-- Result of a whole sync invocation: the returned error or nil, the final
config store, and the trace of issued commands. -/
structure SyncOut where
  result : Except String Unit
  config : List (String × String)
  trace : List Effect
deriving Repr

/-- The abort mode: nothing-to-abort error exactly when there is neither a
resume record nor an in-progress rebase or cherry-pick; otherwise abort both
operations when in progress, pop a recorded stash, return to a recorded
original branch that differs from the current one, and clear the record.
Sub-step failures are warnings only. -/
def abortSync (git : GitOracle) (savedStashed savedOriginalBranch : String)
    (cfg : List (String × String)) : SyncOut :=
  let hasSavedState := savedStashed == "true" || savedOriginalBranch != ""
  if !hasSavedState && !git.cherryPickInProgress && !git.rebaseInProgress then
    { result := .error "no interrupted sync to abort", config := cfg, trace := [] }
  else
    let st0 : EngineSt := { config := cfg, trace := [] }
    let st1 := if git.cherryPickInProgress then emit st0 .abortCherryPickEff else st0
    let st2 := if git.rebaseInProgress then emit st1 .abortRebaseEff else st1
    let st3 := if savedStashed == "true" then emit st2 .stashPop else st2
    let st4 :=
      if savedOriginalBranch != "" then
        match git.currentBranch with
        | .ok cur =>
          if cur != savedOriginalBranch then emit st3 (.checkout savedOriginalBranch) else st3
        | .error _ => st3
      else st3
    let u1 := doUnsetConfig git st4 configSyncStashed
    let u2 := doUnsetConfig git u1.fst configSyncOriginalBranch
    { result := .ok (), config := u2.fst.config, trace := u2.fst.trace }

/-- The deferred cleanup that runs when the sync did not complete and no
rebase conflict is pending: restore the stash and clear the resume record. -/
def deferCleanup (git : GitOracle) (st : EngineSt) : EngineSt :=
  let st1 := emit st .stashPop
  let u1 := doUnsetConfig git st1 configSyncStashed
  (doUnsetConfig git u1.fst configSyncOriginalBranch).fst

/-- The whole `runSync`: mode dispatch, setup, body, and the Go cleanup
discipline — the deferred stash restore fires on every non-completed exit
with a stash and no pending rebase conflict, and the completed path pops the
stash and clears the resume record explicitly. -/
def runSync (git : GitOracle) (hub : HubOracle) (fl : SyncFlags)
    (promptInput : Except String String) (cfg0 : List (String × String)) : SyncOut :=
  let savedStashed := alistGetD cfg0 configSyncStashed ""
  let savedOriginalBranch := alistGetD cfg0 configSyncOriginalBranch ""
  let hasSavedState := savedStashed == "true" || savedOriginalBranch != ""
  if fl.abort then abortSync git savedStashed savedOriginalBranch cfg0
  else
    let setup : (Except String (String × Bool)) × EngineSt :=
      if fl.resume then
        (resumeSetup savedStashed savedOriginalBranch, { config := cfg0, trace := [] })
      else freshSetup git hasSavedState { config := cfg0, trace := [] }
    match setup with
    | (.error e, st) => { result := .error e, config := st.config, trace := st.trace }
    | (.ok (originalBranch, stashed), st) =>
      match runSyncCore git hub fl promptInput originalBranch st with
      | .done st2 =>
        let st3 := if stashed then emit st2 .stashPop else st2
        let u1 := doUnsetConfig git st3 configSyncStashed
        let u2 := doUnsetConfig git u1.fst configSyncOriginalBranch
        { result := .ok (), config := u2.fst.config, trace := u2.fst.trace }
      | .earlyOk st2 =>
        if stashed then
          let st3 := deferCleanup git st2
          { result := .ok (), config := st3.config, trace := st3.trace }
        else { result := .ok (), config := st2.config, trace := st2.trace }
      | .failed st2 msg conflict =>
        if stashed && !conflict then
          let st3 := deferCleanup git st2
          { result := .error msg, config := st3.config, trace := st3.trace }
        else { result := .error msg, config := st2.config, trace := st2.trace }

/-- Projection of the state out of a loop result (both constructors carry the
state reached). -/
def LoopRes.state : LoopRes → EngineSt
  | .cont st => st
  | .fail st _ _ => st

/-- Is the effect one of the three push commands? -/
def isPushEffect : Effect → Bool
  | .pushLease _ _ => true
  | .pushExpected _ _ => true
  | .forcePushEff _ => true
  | _ => false

section ConcreteInstances

/-- A fully healthy git oracle used by concrete witnesses: every command
succeeds, local and remote hashes agree, no commits are patch-unique. -/
def gitHappy : GitOracle where
  currentBranch := .ok "main"
  workingTreeClean := .ok true
  defaultBranch := "main"
  fetchOk := true
  checkoutOk := fun _ => true
  stashOk := true
  stashPopOk := true
  setConfigOk := fun _ => true
  unsetConfigOk := fun _ => true
  remoteBranches := ["feature-a"]
  worktrees := .ok []
  currentWorktreePath := .ok "/repo"
  fetchBranchOk := fun _ => true
  commitHash := fun _ => .ok "aaaaaaaa"
  mergeBase := fun _ _ => .ok "aaaaaaaa"
  uniqueCommitsByPatch := fun _ _ => .ok []
  uniqueCommits := fun _ _ => .ok []
  rebaseOk := fun _ => true
  rebaseOntoOk := fun _ _ _ => true
  resetToRemoteOk := fun _ => true
  pushOk := fun _ _ => true
  pushExpectedOk := fun _ _ => true
  forcePushOk := fun _ => true
  cherryPickInProgress := false
  rebaseInProgress := false
  abortRebaseOk := true
  abortCherryPickOk := true

/-- Hub oracle with no pull requests. -/
def hubEmpty : HubOracle where
  allPRs := .ok []
  updatePRBaseOk := fun _ _ => true

/-- Flag sets for the three modes. -/
def flagsFresh : SyncFlags := { force := false, resume := false, abort := false }

/-- Resume-mode flags. -/
def flagsResume : SyncFlags := { force := false, resume := true, abort := false }

/-- The oracle for the resume counterexample: the user sits on `feature-a`,
which is a stack branch over `main`. -/
def gitResumeW : GitOracle := { gitHappy with currentBranch := .ok "feature-a" }

/-- The config store of the resume counterexample: a resume record whose
`stack.sync.stashed` key is absent (no stash was pushed). -/
def resumeCfgW : List (String × String) :=
  [("stack.sync.originalBranch", "feature-a"), ("branch.feature-a.stackparent", "main")]

/-- The oracle for the declined-prompt early exit: the user sits on a branch
that is not in a stack. -/
def gitDeclW : GitOracle := { gitHappy with currentBranch := .ok "feature-z" }

/-- A merged pull-request record (head branch `feature-x`). -/
def mergedRaw : RawPR :=
  { number := 7, state := "MERGED", headRefName := "feature-x", baseRefName := "main",
    title := "feature x", url := "u7", mergeStateStatus := "UNKNOWN" }

/-- An open pull-request record for the same head branch `feature-x`. -/
def openRaw : RawPR :=
  { number := 1, state := "OPEN", headRefName := "feature-x", baseRefName := "main",
    title := "feature x", url := "u1", mergeStateStatus := "CLEAN" }

end ConcreteInstances

/-- `alistFind?` after an update at the same key. -/
theorem alistFind?_set_self {α : Type} (m : List (String × α)) (k : String) (v : α) :
    alistFind? (alistSet m k v) k = some v := by
  induction m with
  | nil => simp [alistSet, alistFind?]
  | cons p ps ih =>
    by_cases h : p.fst == k
    · simp [alistSet, alistFind?, h]
    · simp [alistSet, alistFind?, h, ih]

/-- `alistFind?` stays defined under an update at any key. -/
theorem alistFind?_set_isSome {α : Type} (m : List (String × α)) (k k' : String) (v : α)
    (h : (alistFind? m k).isSome) : (alistFind? (alistSet m k' v) k).isSome := by
  induction m with
  | nil => simp [alistFind?] at h
  | cons p ps ih =>
    by_cases hp : p.fst == k'
    · by_cases hk : k' = k
      · subst hk
        simp [alistSet, alistFind?, hp]
      · have hpk : (p.fst == k) = false := by
          have : p.fst = k' := by simpa using hp
          simp [this, hk]
        simp only [alistFind?, hpk, Bool.false_eq_true, if_neg, not_false_iff] at h
        have : (k' == k) = false := by simpa using hk
        simp [alistSet, alistFind?, hp, this, h]
    · by_cases hpk : p.fst == k
      · simp [alistSet, alistFind?, hp, hpk]
      · simp only [alistFind?, hpk, Bool.false_eq_true, if_neg, not_false_iff] at h
        simp [alistSet, alistFind?, hp, hpk, ih h]

/-- Folding updates over a record list keeps every key defined. -/
theorem buildPRMap_foldl_isSome (prs : List RawPR) (m : List (String × PRInfo))
    (k : String) (h : (alistFind? m k).isSome) :
    (alistFind? (prs.foldl (fun m pr => alistSet m pr.headRefName (rawToInfo pr)) m) k).isSome := by
  induction prs generalizing m with
  | nil => simpa using h
  | cons pr prs ih =>
    simp only [List.foldl_cons]
    exact ih _ (alistFind?_set_isSome m k pr.headRefName (rawToInfo pr) h)

/-- A head branch occurring in the record list is defined in the folded map,
whatever the accumulator. -/
theorem buildPRMap_foldl_mem_isSome (prs : List RawPR) (m : List (String × PRInfo))
    (pr : RawPR) (h : pr ∈ prs) :
    (alistFind? (prs.foldl (fun m q => alistSet m q.headRefName (rawToInfo q)) m)
      pr.headRefName).isSome := by
  induction prs generalizing m with
  | nil => cases h
  | cons q qs ih =>
    simp only [List.foldl_cons]
    rcases List.mem_cons.mp h with hq | hq
    · subst hq
      exact buildPRMap_foldl_isSome qs _ _ (by simp [alistFind?_set_self])
    · exact ih _ hq

/-- C7 counterexample.  The claim says the bulk query returns only open
records and that a branch whose only PR is merged has no entry in the map.
In the code `GetAllPRs` passes `--state all` to the CLI and filters nothing:
with a single merged record for `feature-x`, the returned mapping does
contain an entry for `feature-x`, and that entry is the merged record. -/
theorem getAllPRs_merged_entry_counterexample :
    GetAllPRs (.ok [mergedRaw]) = .ok [("feature-x", rawToInfo mergedRaw)] ∧
    prLookup (buildPRMap [mergedRaw]) "feature-x" = some (rawToInfo mergedRaw) ∧
    (rawToInfo mergedRaw).state = "MERGED" ∧
    "--state" ∈ getAllPRsArgs ∧ "all" ∈ getAllPRsArgs := by
  refine ⟨rfl, rfl, rfl, ?_, ?_⟩ <;> decide

/-- C7 amended: `GetAllPRs` requests pull requests of every state
(`--state all`) and the returned mapping has an entry for every head branch
occurring in the CLI output, whatever the state of its records. -/
theorem getAllPRs_maps_every_head_branch (prs : List RawPR) (pr : RawPR)
    (h : pr ∈ prs) : (prLookup (buildPRMap prs) pr.headRefName).isSome :=
  buildPRMap_foldl_mem_isSome prs [] pr h

/-- C7 witness for the amended claim. -/
theorem getAllPRs_maps_every_head_branch_witness :
    (prLookup (buildPRMap [openRaw, mergedRaw]) openRaw.headRefName).isSome :=
  getAllPRs_maps_every_head_branch [openRaw, mergedRaw] openRaw (by decide)

/-- C8 counterexample.  The claim says that when several records share one
head branch the open one is preferred; in the code the map-building loop
overwrites unconditionally, so with an open record followed by a merged
record for `feature-x` the effective record is the merged one. -/
theorem prMap_open_not_preferred_counterexample :
    openRaw ∈ [openRaw, mergedRaw] ∧
    openRaw.state = "OPEN" ∧
    mergedRaw.headRefName = openRaw.headRefName ∧
    prLookup (buildPRMap [openRaw, mergedRaw]) "feature-x" = some (rawToInfo mergedRaw) ∧
    (rawToInfo mergedRaw).state ≠ "OPEN" := by
  refine ⟨by decide, rfl, rfl, rfl, by decide⟩

/-- C8 amended: when several records share one head branch, the record that
appears last in the CLI list output wins, regardless of state. -/
theorem prMap_last_record_wins (prs : List RawPR) (pr : RawPR) :
    prLookup (buildPRMap (prs ++ [pr])) pr.headRefName = some (rawToInfo pr) := by
  have h : buildPRMap (prs ++ [pr])
      = alistSet (buildPRMap prs) pr.headRefName (rawToInfo pr) := by
    simp [buildPRMap, List.foldl_append]
  rw [prLookup, h]
  exact alistFind?_set_self _ _ _

/-- C10: `GetPRForBranch` swallows every subprocess failure into `(nil, nil)`
(callers cannot distinguish a missing PR from a review-service failure) and
returns an error exactly when the subprocess succeeds but its output fails to
parse. -/
theorem getPRForBranch_error_contract (e out pe : String)
    (parse : String → Except String RawPR) (d : RawPR) :
    (GetPRForBranch (.error e) parse = .ok none) ∧
    (parse out = .error pe →
      GetPRForBranch (.ok out) parse = .error ("failed to parse PR info: " ++ pe)) ∧
    (parse out = .ok d → GetPRForBranch (.ok out) parse = .ok (some (rawToInfo d))) := by
  refine ⟨rfl, fun h => ?_, fun h => ?_⟩ <;> simp [GetPRForBranch, h]

/-- C10 witness. -/
theorem getPRForBranch_error_contract_witness :
    (GetPRForBranch (.error "gh failed") (fun _ => .error "bad json") = .ok none) ∧
    (GetPRForBranch (.ok "out") (fun _ => .error "bad json")
      = .error ("failed to parse PR info: " ++ "bad json")) ∧
    (GetPRForBranch (.ok "out") (fun _ => .ok openRaw) = .ok (some (rawToInfo openRaw))) :=
  ⟨(getPRForBranch_error_contract "gh failed" "out" "bad json"
      (fun _ => .error "bad json") openRaw).1,
   (getPRForBranch_error_contract "gh failed" "out" "bad json"
      (fun _ => .error "bad json") openRaw).2.1 rfl,
   (getPRForBranch_error_contract "gh failed" "out" "bad json"
      (fun _ => .ok openRaw) openRaw).2.2 rfl⟩

/-- C1 counterexample.  The claim says the resume mode sets the in-memory
stash flag to the value recorded under `stack.sync.stashed`, so a stash is
popped at the end only if the record marked one.  With a resume record whose
`stashed` key is absent, a successful resumed sync still pops a stash. -/
theorem resume_stash_flag_counterexample :
    alistGetD resumeCfgW configSyncStashed "" ≠ "true" ∧
    (runSync gitResumeW hubEmpty flagsResume (.ok "") resumeCfgW).result = .ok () ∧
    Effect.stashPop ∈ (runSync gitResumeW hubEmpty flagsResume (.ok "") resumeCfgW).trace := by
  refine ⟨by decide, rfl, by decide⟩

/-- C1 amended: in resume mode with a resume record present, the engine
adopts the saved original branch but sets its in-memory stash flag to `true`
unconditionally, whatever the value of the recorded `stashed` field. -/
theorem resume_adopts_branch_stash_always_true (savedStashed savedOriginalBranch : String)
    (h : (savedStashed == "true" || savedOriginalBranch != "") = true) :
    resumeSetup savedStashed savedOriginalBranch = .ok (savedOriginalBranch, true) := by
  simp [resumeSetup, h]

/-- C1 witness for the amended claim: a record with only the original branch
present, and one with only the stash flag present. -/
theorem resume_adopts_branch_stash_always_true_witness :
    resumeSetup "" "feature-a" = .ok ("feature-a", true) ∧
    resumeSetup "true" "" = .ok ("", true) :=
  ⟨resume_adopts_branch_stash_always_true "" "feature-a" (by decide),
   resume_adopts_branch_stash_always_true "true" "" (by decide)⟩

/-- C3 (code bug): a fresh sync that exits successfully through an early
path leaves the resume record populated.  First input: clean tree, current
branch `main` with no stack at all — the run prints the empty-stack message
and returns nil while `stack.sync.originalBranch` is still set.  Second
input: the user is on non-stack branch `feature-z` and declines the
add-to-stack prompt — the run returns nil with the record still set.  The
claim (spec P5) requires the record to be cleared on every successful fresh
exit. -/
theorem fresh_sync_early_exit_leaves_resume_record :
    (runSync gitHappy hubEmpty flagsFresh (.ok "") []).result = .ok () ∧
    alistGetD (runSync gitHappy hubEmpty flagsFresh (.ok "") []).config
      configSyncOriginalBranch "" = "main" ∧
    (runSync gitDeclW hubEmpty flagsFresh (.ok "n\n") []).result = .ok () ∧
    alistGetD (runSync gitDeclW hubEmpty flagsFresh (.ok "n\n") []).config
      configSyncOriginalBranch "" = "feature-z" := by
  refine ⟨rfl, rfl, rfl, rfl⟩

/-- The rebase closure only ever issues rebase commands. -/
theorem rebaseStep_acts_no_push (git : GitOracle) (t o bn : String) :
    ∀ eff ∈ (rebaseStep git t o bn).acts, isPushEffect eff = false := by
  intro eff h
  simp only [rebaseStep] at h
  repeat' split at h
  all_goals simp_all [isPushEffect]

/-- The collapse phase leaves the trace untouched (it only writes config). -/
theorem collapsePhase_trace (git : GitOracle) (prCache : List (String × PRInfo))
    (st0 : EngineSt) (b0 : StackBranch) :
    (collapsePhase git prCache st0 b0).2.2.trace = st0.trace := by
  unfold collapsePhase doSetConfig
  repeat' split
  all_goals rfl

/-- The collapse phase can change the parent but never the name. -/
theorem collapsePhase_name (git : GitOracle) (prCache : List (String × PRInfo))
    (st0 : EngineSt) (b0 : StackBranch) :
    (collapsePhase git prCache st0 b0).2.1.name = b0.name := by
  unfold collapsePhase doSetConfig
  repeat' split
  all_goals rfl

/-- A branch that does not exist on the remote skips the reconcile phase. -/
theorem reconcileRemote_not_on_remote (git : GitOracle) (force : Bool)
    (st : EngineSt) (bname : String) :
    reconcileRemote git force false st bname = .ok st := by
  simp [reconcileRemote]

/-- A branch that is neither in the remote-branch set nor in the PR cache is
never pushed during its loop iteration: the trace grows only by the checkout
and the rebase commands. -/
theorem processBranchMain_trace_shape (git : GitOracle) (force : Bool)
    (prCache : List (String × PRInfo)) (sset rset : List String)
    (st : EngineSt) (b : StackBranch)
    (hrb : rset.contains b.name = false) (hpr : prLookup prCache b.name = none) :
    ∃ racts, (∀ e ∈ racts, isPushEffect e = false) ∧
      ((processBranchMain git force prCache sset rset st b).state).trace
        = st.trace ++ [Effect.checkout b.name] ++ racts := by
  have hname := collapsePhase_name git prCache st b
  have htrc := collapsePhase_trace git prCache st b
  simp only [processBranchMain, hname, hrb, hpr, Option.isSome_none, Bool.or_false,
    Bool.false_and, Bool.false_eq_true, if_neg, not_false_iff,
    reconcileRemote_not_on_remote]
  rcases hco : git.checkoutOk b.name with _ | _
  · simp only [Bool.not_false, if_pos, LoopRes.state]
    exact ⟨[], by simp, by simp [emit, htrc]⟩
  · simp only [Bool.not_true, Bool.false_eq_true, if_neg, not_false_iff]
    have hna := rebaseStep_acts_no_push git
      (chooseRebaseTarget sset (collapsePhase git prCache st b).2.1.parent)
      ((collapsePhase git prCache st b).1) b.name
    generalize rebaseStep git (chooseRebaseTarget sset (collapsePhase git prCache st b).2.1.parent)
      ((collapsePhase git prCache st b).1) b.name = rs at hna ⊢
    obtain ⟨racts, res⟩ := rs
    simp only at hna
    cases res <;>
      simp only [LoopRes.state, prBaseStep, hname, hpr, emit] <;>
      exact ⟨racts, hna, by simp [htrc]⟩

/-- C4: the polluted-history guard.  On the guard path (old parent not set,
nonempty patch-unique commits, merge-base found, target hash differing from
the merge-base, commit count available) the rebase closure fails with the
distinctive polluted-history result if and only if the total commit count
from the merge-base strictly exceeds twice the number of patch-unique
commits, and the printed recipe lists at most the first five patch-unique
commits. -/
theorem polluted_history_guard_iff (git : GitOracle) (target bname mb : String)
    (l allC : List String)
    (hu : git.uniqueCommitsByPatch target bname = .ok l) (hne : l ≠ [])
    (hm : git.mergeBase bname target = .ok mb)
    (hh : hashEqCheck git target mb = false)
    (ha : git.uniqueCommits mb bname = .ok allC) :
    ((rebaseStep git target "" bname).res
        = .polluted allC.length l.length (pollutedRecipe l)
      ↔ allC.length > l.length * 2) ∧
    ((∃ nA nU r, (rebaseStep git target "" bname).res = .polluted nA nU r)
      ↔ allC.length > l.length * 2) ∧
    (pollutedRecipe l).length ≤ 5 ∧
    pollutedRecipe l = (l.take 5).map (fun c => strTake c 8) := by
  have hle : l.isEmpty = false := by
    cases l with
    | nil => exact absurd rfl hne
    | cons x xs => rfl
  have hrecip : (pollutedRecipe l).length ≤ 5 := by
    simp only [pollutedRecipe, List.length_map, List.length_take]
    omega
  by_cases hp : allC.length > l.length * 2
  · refine ⟨?_, ?_, hrecip, rfl⟩ <;>
      simp [rebaseStep, hu, hle, hm, hh, ha, hp]
  · have hres : (rebaseStep git target "" bname).res
        = (if git.rebaseOntoOk target mb bname then RebaseRes.rebOk else RebaseRes.gitFailed) := by
      simp [rebaseStep, hu, hle, hm, hh, ha, hp]
    refine ⟨?_, ?_, hrecip, rfl⟩ <;> rw [hres] <;> constructor
    · intro h
      split at h <;> cases h
    · intro h; exact absurd h hp
    · rintro ⟨nA, nU, r, h⟩
      split at h <;> cases h
    · intro h; exact absurd h hp

/-- The oracle of the C4 witness: three patch-unique commits against seven
total commits from the merge-base, the target hash differing from the
merge-base. -/
def gitC4 : GitOracle :=
  { gitHappy with
    uniqueCommitsByPatch := fun _ _ => .ok ["c1deadbeefcafe", "c2deadbeefcafe", "c3deadbeefcafe"]
    mergeBase := fun _ _ => .ok "mbase"
    commitHash := fun _ => .ok "otherhash"
    uniqueCommits := fun _ _ => .ok ["a1", "a2", "a3", "a4", "a5", "a6", "a7"] }

/-- C4 witness: with 7 total commits and 3 patch-unique ones the guard fires
(7 > 6) and the recipe lists the three eight-character prefixes. -/
theorem polluted_history_guard_iff_witness :
    (rebaseStep gitC4 "origin/main" "" "feature-a").res
      = .polluted 7 3 ["c1deadbe", "c2deadbe", "c3deadbe"] ∧
    (["c1deadbe", "c2deadbe", "c3deadbe"] : List String).length ≤ 5 := by
  have h := polluted_history_guard_iff gitC4 "origin/main" "feature-a" "mbase"
    ["c1deadbeefcafe", "c2deadbeefcafe", "c3deadbeefcafe"]
    ["a1", "a2", "a3", "a4", "a5", "a6", "a7"]
    rfl (by decide) rfl (by decide) rfl
  refine ⟨?_, by decide⟩
  have := h.1.mpr (by decide)
  simpa [pollutedRecipe, strTake] using this

/-- C5: the push protocol.  Force mode pushes with unconditional `--force`;
default mode refreshes the tracking ref and pushes with an explicit
`--force-with-lease=branch:sha`, falling back to a plain force-with-lease
push when the refresh or the SHA read fails; and a branch that does not
exist on origin is never pushed at all during its iteration. -/
theorem push_protocol (git : GitOracle) (bname sha e : String) (force : Bool)
    (prCache : List (String × PRInfo)) (sset rset : List String)
    (st : EngineSt) (b : StackBranch) :
    ((pushStep git true bname).acts = [.forcePushEff bname]) ∧
    (git.fetchBranchOk bname = false →
      (pushStep git false bname).acts = [.fetchBranch bname, .pushLease bname true]) ∧
    (git.fetchBranchOk bname = true → git.commitHash ("origin/" ++ bname) = .error e →
      (pushStep git false bname).acts = [.fetchBranch bname, .pushLease bname true]) ∧
    (git.fetchBranchOk bname = true → git.commitHash ("origin/" ++ bname) = .ok sha →
      (pushStep git false bname).acts = [.fetchBranch bname, .pushExpected bname sha]) ∧
    (rset.contains b.name = false → prLookup prCache b.name = none →
      (∀ eff ∈ st.trace, isPushEffect eff = false) →
      ∀ eff ∈ ((processBranch git force prCache sset rset st b).state).trace,
        isPushEffect eff = false) := by
  refine ⟨by simp [pushStep], fun hf => by simp [pushStep, hf],
    fun hf hc => by simp [pushStep, hf, hc],
    fun hf hc => by simp [pushStep, hf, hc],
    fun hrb hpr htr eff heff => ?_⟩
  simp only [processBranch, hpr] at heff
  obtain ⟨racts, hra, heq⟩ :=
    processBranchMain_trace_shape git force prCache sset rset st b hrb hpr
  rw [heq] at heff
  simp only [List.mem_append, List.mem_singleton] at heff
  rcases heff with (h | h) | h
  · exact htr eff h
  · subst h; rfl
  · exact hra eff h

/-- C5 witness: concrete instances of all four push variants and a no-push
iteration for a branch absent from origin. -/
theorem push_protocol_witness :
    ((pushStep gitHappy true "feature-a").acts = [.forcePushEff "feature-a"]) ∧
    ((pushStep { gitHappy with fetchBranchOk := fun _ => false } false "feature-a").acts
      = [.fetchBranch "feature-a", .pushLease "feature-a" true]) ∧
    ((pushStep { gitHappy with commitHash := fun _ => .error "gone" } false "feature-a").acts
      = [.fetchBranch "feature-a", .pushLease "feature-a" true]) ∧
    ((pushStep gitHappy false "feature-a").acts
      = [.fetchBranch "feature-a", .pushExpected "feature-a" "aaaaaaaa"]) ∧
    (∀ eff ∈ ((processBranch gitHappy false [] [] [] { config := [], trace := [] }
        { name := "feature-b", parent := "main" }).state).trace,
      isPushEffect eff = false) :=
  ⟨(push_protocol gitHappy "feature-a" "aaaaaaaa" "gone" true [] [] []
      { config := [], trace := [] } { name := "feature-b", parent := "main" }).1,
   (push_protocol { gitHappy with fetchBranchOk := fun _ => false } "feature-a" "aaaaaaaa"
      "gone" false [] [] [] { config := [], trace := [] }
      { name := "feature-b", parent := "main" }).2.1 rfl,
   (push_protocol { gitHappy with commitHash := fun _ => .error "gone" } "feature-a"
      "aaaaaaaa" "gone" false [] [] [] { config := [], trace := [] }
      { name := "feature-b", parent := "main" }).2.2.1 rfl rfl,
   (push_protocol gitHappy "feature-a" "aaaaaaaa" "gone" false [] [] []
      { config := [], trace := [] } { name := "feature-b", parent := "main" }).2.2.2.1 rfl rfl,
   (push_protocol gitHappy "feature-a" "aaaaaaaa" "gone" false [] [] []
      { config := [], trace := [] } { name := "feature-b", parent := "main" }).2.2.2.2
      (by decide) rfl (by simp)⟩

/-- C2: rebase-mode selection.  The target is the parent itself for a stack
branch and `origin/<parent>` for a base branch; a collapsed merged parent
forces `rebase --onto target P_old B`; otherwise an empty patch-unique set
does nothing, a merge-base equal to the target hash gives a plain rebase,
and any other case (with the polluted-history guard not firing) gives
`rebase --onto target merge-base B`. -/
theorem rebase_mode_selection (git : GitOracle) (sset : List String)
    (parent target old bname mb : String) (l : List String) :
    (sset.contains parent = true → chooseRebaseTarget sset parent = parent) ∧
    (sset.contains parent = false → chooseRebaseTarget sset parent = "origin/" ++ parent) ∧
    (old ≠ "" → (rebaseStep git target old bname).acts = [.rebaseOnto target old bname]) ∧
    (git.uniqueCommitsByPatch target bname = .ok [] →
      (rebaseStep git target "" bname).acts = [] ∧
      (rebaseStep git target "" bname).res = .rebOk) ∧
    (git.uniqueCommitsByPatch target bname = .ok l → l ≠ [] →
      git.mergeBase bname target = .ok mb → hashEqCheck git target mb = true →
      (rebaseStep git target "" bname).acts = [.rebasePlain target]) ∧
    (git.uniqueCommitsByPatch target bname = .ok l → l ≠ [] →
      git.mergeBase bname target = .ok mb → hashEqCheck git target mb = false →
      (∀ allC, git.uniqueCommits mb bname = .ok allC → ¬ allC.length > l.length * 2) →
      (rebaseStep git target "" bname).acts = [.rebaseOnto target mb bname]) := by
  refine ⟨fun h => by unfold chooseRebaseTarget; rw [h]; simp,
    fun h => by unfold chooseRebaseTarget; rw [h]; simp,
    fun h => by simp [rebaseStep, h],
    fun h => by constructor <;> simp [rebaseStep, h],
    fun hu hne hm hh => ?_, fun hu hne hm hh hg => ?_⟩
  · have hle : l.isEmpty = false := by
      cases l with
      | nil => exact absurd rfl hne
      | cons x xs => rfl
    simp [rebaseStep, hu, hle, hm, hh]
  · have hle : l.isEmpty = false := by
      cases l with
      | nil => exact absurd rfl hne
      | cons x xs => rfl
    rcases hac : git.uniqueCommits mb bname with e | allC
    · simp [rebaseStep, hu, hle, hm, hh, hac]
    · have := hg allC hac
      simp [rebaseStep, hu, hle, hm, hh, hac, this]

/-- The oracle of the C2 witness: behavior varies with the branch and target
names so all selection cases occur. -/
def gitC2 : GitOracle :=
  { gitHappy with
    uniqueCommitsByPatch := fun _ b => if b = "b-empty" then .ok [] else .ok ["c1"]
    mergeBase := fun _ _ => .ok "mbase"
    commitHash := fun r => if r = "t-eq" then .ok "mbase" else .ok "otherhash"
    uniqueCommits := fun _ _ => .ok ["c1"] }

/-- C2 witness: every selection case at a concrete input. -/
theorem rebase_mode_selection_witness :
    chooseRebaseTarget ["p"] "p" = "p" ∧
    chooseRebaseTarget [] "p" = "origin/" ++ "p" ∧
    (rebaseStep gitC2 "t-eq" "old-parent" "b1").acts = [.rebaseOnto "t-eq" "old-parent" "b1"] ∧
    ((rebaseStep gitC2 "t-eq" "" "b-empty").acts = [] ∧
      (rebaseStep gitC2 "t-eq" "" "b-empty").res = .rebOk) ∧
    (rebaseStep gitC2 "t-eq" "" "b1").acts = [.rebasePlain "t-eq"] ∧
    (rebaseStep gitC2 "t-ne" "" "b1").acts = [.rebaseOnto "t-ne" "mbase" "b1"] :=
  ⟨(rebase_mode_selection gitC2 ["p"] "p" "t-eq" "old-parent" "b1" "mbase" ["c1"]).1 (by decide),
   (rebase_mode_selection gitC2 [] "p" "t-eq" "old-parent" "b1" "mbase" ["c1"]).2.1 (by decide),
   (rebase_mode_selection gitC2 ["p"] "p" "t-eq" "old-parent" "b1" "mbase" ["c1"]).2.2.1
     (by decide),
   (rebase_mode_selection gitC2 ["p"] "p" "t-eq" "" "b-empty" "mbase" ["c1"]).2.2.2.1 rfl,
   (rebase_mode_selection gitC2 ["p"] "p" "t-eq" "" "b1" "mbase" ["c1"]).2.2.2.2.1
     rfl (by decide) rfl (by decide),
   (rebase_mode_selection gitC2 ["p"] "p" "t-ne" "" "b1" "mbase" ["c1"]).2.2.2.2.2
     rfl (by decide) rfl (by decide)
     (fun allC hac => by
       cases hac
       decide)⟩

/-- A defaulted lookup on a list without the key yields the default. -/
theorem alistGetD_eq_default_of_not_key (m : List (String × String)) (k d : String)
    (h : ∀ p ∈ m, ¬ p.fst = k) : alistGetD m k d = d := by
  induction m with
  | nil => rfl
  | cons p ps ih =>
    have hp : (p.fst == k) = false := by
      simpa using h p (List.mem_cons_self p ps)
    simp only [alistGetD, hp, Bool.false_eq_true, if_neg, not_false_iff]
    exact ih (fun q hq => h q (List.mem_cons_of_mem p hq))

/-- Unsetting a key makes its lookup come back empty. -/
theorem alistGetD_filter_self (m : List (String × String)) (k d : String) :
    alistGetD (m.filter (fun p => p.fst != k)) k d = d := by
  refine alistGetD_eq_default_of_not_key _ k d (fun p hp => ?_)
  have := (List.mem_filter.mp hp).2
  simpa using this

/-- Unsetting a second key keeps the first one unset. -/
theorem alistGetD_filter_filter (m : List (String × String)) (k k2 d : String) :
    alistGetD ((m.filter (fun p => p.fst != k)).filter (fun p => p.fst != k2)) k d = d := by
  refine alistGetD_eq_default_of_not_key _ k d (fun p hp => ?_)
  have := (List.mem_filter.mp (List.mem_filter.mp hp).1).2
  simpa using this

/-- Unsetting two keys in one pass clears the first. -/
theorem alistGetD_filter_and_left (m : List (String × String)) (k k2 d : String) :
    alistGetD (m.filter (fun p => p.fst != k && p.fst != k2)) k d = d := by
  refine alistGetD_eq_default_of_not_key _ k d (fun p hp => ?_)
  have := (List.mem_filter.mp hp).2
  simp only [Bool.and_eq_true, bne_iff_ne, ne_eq] at this
  exact this.1

/-- Unsetting two keys in one pass clears the second. -/
theorem alistGetD_filter_and_right (m : List (String × String)) (k k2 d : String) :
    alistGetD (m.filter (fun p => p.fst != k && p.fst != k2)) k2 d = d := by
  refine alistGetD_eq_default_of_not_key _ k2 d (fun p hp => ?_)
  have := (List.mem_filter.mp hp).2
  simp only [Bool.and_eq_true, bne_iff_ne, ne_eq] at this
  exact this.2

/-- C6: `sync --abort`.  It fails with the nothing-to-abort error exactly
when neither a resume record exists nor a rebase or cherry-pick is in
progress; otherwise it returns success with the resume record cleared, and
the issued commands are precisely: abort cherry-pick when one is in
progress, abort rebase when one is in progress, a stash pop when the record
marks a stash, and a checkout of the recorded original branch when it is
recorded, the current branch is readable and differs from it.  Sub-step
failures do not change the result (no success oracle is consulted). -/
theorem sync_abort_behavior (git : GitOracle) (ss so : String)
    (cfg : List (String × String)) (hu : ∀ k, git.unsetConfigOk k = true) :
    ((abortSync git ss so cfg).result = .error "no interrupted sync to abort"
      ↔ (ss == "true" || so != "") = false ∧ git.cherryPickInProgress = false ∧
        git.rebaseInProgress = false) ∧
    (((ss == "true" || so != "") = true ∨ git.cherryPickInProgress = true ∨
        git.rebaseInProgress = true) →
      (abortSync git ss so cfg).result = .ok () ∧
      alistGetD (abortSync git ss so cfg).config configSyncStashed "" = "" ∧
      alistGetD (abortSync git ss so cfg).config configSyncOriginalBranch "" = "" ∧
      (abortSync git ss so cfg).trace =
        (if git.cherryPickInProgress then [Effect.abortCherryPickEff] else []) ++
        (if git.rebaseInProgress then [Effect.abortRebaseEff] else []) ++
        (if ss == "true" then [Effect.stashPop] else []) ++
        (if so != "" then
          (match git.currentBranch with
           | .ok cur => if cur != so then [Effect.checkout so] else []
           | .error _ => [])
         else [])) := by
  by_cases hcp : git.cherryPickInProgress = true <;>
  by_cases hrb : git.rebaseInProgress = true <;>
  by_cases hss : (ss == "true") = true <;>
  by_cases hso : (so != "") = true <;>
  rcases hcb : git.currentBranch with e | cur
  all_goals
    first
    | (by_cases hne : (cur != so) = true <;>
        simp_all [abortSync, emit, doUnsetConfig, hu, alistGetD_filter_self,
          alistGetD_filter_filter, alistGetD_filter_and_left, alistGetD_filter_and_right])
    | simp_all [abortSync, emit, doUnsetConfig, hu, alistGetD_filter_self,
        alistGetD_filter_filter, alistGetD_filter_and_left, alistGetD_filter_and_right]

/-- The oracle and config of the C6 witness: rebase in progress, full resume
record, user on another branch. -/
def gitAbortW : GitOracle :=
  { gitHappy with rebaseInProgress := true, currentBranch := .ok "feature-b" }

/-- The config store of the C6 witness. -/
def abortCfgW : List (String × String) :=
  [("stack.sync.stashed", "true"), ("stack.sync.originalBranch", "feature-a")]

/-- C6 witness: a rebase-in-progress abort with a full resume record while
the user sits on another branch. -/
theorem sync_abort_behavior_witness :
    (abortSync gitAbortW "true" "feature-a" abortCfgW).result = .ok () ∧
    alistGetD (abortSync gitAbortW "true" "feature-a" abortCfgW).config
      configSyncStashed "" = "" ∧
    alistGetD (abortSync gitAbortW "true" "feature-a" abortCfgW).config
      configSyncOriginalBranch "" = "" ∧
    (abortSync gitAbortW "true" "feature-a" abortCfgW).trace =
      [Effect.abortRebaseEff, Effect.stashPop, Effect.checkout "feature-a"] := by
  have h := (sync_abort_behavior gitAbortW "true" "feature-a" abortCfgW
    (fun _ => rfl)).2 (Or.inl (by decide))
  refine ⟨h.1, h.2.1, h.2.2.1, ?_⟩
  rw [h.2.2.2]
  decide

/-- Bumping another key leaves a lookup unchanged. -/
theorem bumpInt_get_ne (m : List (String × Int)) (k k2 : String) (d : Int)
    (h : k2 ≠ k) : alistGetD (bumpInt m k d) k2 0 = alistGetD m k2 0 :=
  alistGetD_set_ne m k k2 _ 0 h

/-- Processing a child list leaves the degrees of non-children unchanged. -/
theorem processChildren_get_notmem (cs : List String) (deg : List (String × Int))
    (q : List String) (c : String) (h : c ∉ cs) :
    alistGetD (processChildren cs deg q).1 c 0 = alistGetD deg c 0 := by
  induction cs generalizing deg q with
  | nil => rfl
  | cons c0 cs ih =>
    have hne : c ≠ c0 := fun he => h (he ▸ List.mem_cons_self c0 cs)
    have h2 : c ∉ cs := fun hm => h (List.mem_cons_of_mem c0 hm)
    simp only [processChildren]
    rw [ih _ _ h2, bumpInt_get_ne _ _ _ _ hne]

/-- Processing a child list only enqueues children. -/
theorem processChildren_mem_queue (cs : List String) (deg : List (String × Int))
    (q : List String) (c : String) (h : c ∈ (processChildren cs deg q).2) :
    c ∈ q ∨ c ∈ cs := by
  induction cs generalizing deg q with
  | nil => exact Or.inl h
  | cons c0 cs ih =>
    simp only [processChildren] at h
    rcases ih _ _ h with hq | hcs
    · split at hq
      · rcases List.mem_append.mp hq with h1 | h1
        · exact Or.inl h1
        · have : c = c0 := by simpa using h1
          exact Or.inr (this ▸ List.mem_cons_self c0 cs)
      · exact Or.inl hq
    · exact Or.inr (List.mem_cons_of_mem c0 hcs)

/-- Appending a fresh zero entry changes no defaulted-to-zero lookup. -/
theorem alistGetD_append_zero (m : List (String × Int)) (k n : String) :
    alistGetD (m ++ [(k, 0)]) n 0 = alistGetD m n 0 := by
  induction m with
  | nil =>
    simp only [List.nil_append, alistGetD]
    split <;> rfl
  | cons p ps ih =>
    simp only [List.cons_append, alistGetD]
    split
    · rfl
    · exact ih

/-- Seeding an entry changes no defaulted-to-zero lookup. -/
theorem alistGetD_ensureKey (m : List (String × Int)) (k n : String) :
    alistGetD (ensureKey m k) n 0 = alistGetD m n 0 := by
  unfold ensureKey
  split
  · rfl
  · exact alistGetD_append_zero m k n

/-- One build step adds exactly one to the in-degree of the branch name and
leaves every other degree unchanged. -/
theorem kahnStep_deg (st : (List (String × List String)) × (List (String × Int)) ×
    (List (String × StackBranch))) (b : StackBranch) (n : String) :
    alistGetD (kahnStep st b).2.1 n 0
      = alistGetD st.2.1 n 0 + (if b.name = n then 1 else 0) := by
  by_cases h : b.name = n
  · subst h
    simp only [kahnStep, bumpInt, if_pos]
    rw [alistGetD_set_self]
    rw [alistGetD_ensureKey, alistGetD_ensureKey]
  · simp only [kahnStep, bumpInt, if_neg h, add_zero]
    rw [alistGetD_set_ne _ _ _ _ _ (fun he => h he.symm)]
    rw [alistGetD_ensureKey, alistGetD_ensureKey]

/-- Degrees never decrease along the build. -/
theorem kahnBuild_deg_mono (bs : List StackBranch)
    (st : (List (String × List String)) × (List (String × Int)) ×
      (List (String × StackBranch))) (n : String) :
    alistGetD st.2.1 n 0 ≤ alistGetD (bs.foldl kahnStep st).2.1 n 0 := by
  induction bs generalizing st with
  | nil => exact le_refl _
  | cons b bs ih =>
    simp only [List.foldl_cons]
    have h1 := kahnStep_deg st b n
    have h2 := ih (kahnStep st b)
    have : alistGetD st.2.1 n 0 ≤ alistGetD (kahnStep st b).2.1 n 0 := by
      rw [h1]; split <;> omega
    omega

/-- A name carried by some branch of the build input ends with in-degree at
least one (each branch contributes one in-edge for its unique name). -/
theorem kahnBuild_deg_ge_one (bs : List StackBranch)
    (st : (List (String × List String)) × (List (String × Int)) ×
      (List (String × StackBranch))) (n : String)
    (hmem : ∃ b ∈ bs, b.name = n) (hst : 0 ≤ alistGetD st.2.1 n 0) :
    1 ≤ alistGetD (bs.foldl kahnStep st).2.1 n 0 := by
  induction bs generalizing st with
  | nil => simp at hmem
  | cons b bs ih =>
    simp only [List.foldl_cons]
    have h1 := kahnStep_deg st b n
    rcases hmem with ⟨b0, hb0, hbn⟩
    rcases List.mem_cons.mp hb0 with he | he
    · subst he
      have hstep : 1 ≤ alistGetD (kahnStep st b0).2.1 n 0 := by
        rw [h1, if_pos hbn]; omega
      have := kahnBuild_deg_mono bs (kahnStep st b0) n
      omega
    · exact ih (kahnStep st b) ⟨b0, he, hbn⟩ (by rw [h1]; split <;> omega)

/-- A child entry in the built children map comes from a branch record. -/
theorem kahnBuild_children_sub (bs : List StackBranch)
    (st : (List (String × List String)) × (List (String × Int)) ×
      (List (String × StackBranch))) (p c : String)
    (h : c ∈ alistGetD (bs.foldl kahnStep st).1 p []) :
    c ∈ alistGetD st.1 p [] ∨ ∃ b ∈ bs, b.name = c ∧ b.parent = p := by
  induction bs generalizing st with
  | nil => exact Or.inl h
  | cons b bs ih =>
    simp only [List.foldl_cons] at h
    rcases ih (kahnStep st b) h with h1 | h1
    · by_cases hp : b.parent = p
      · subst hp
        simp only [kahnStep] at h1
        rw [alistGetD_set_self] at h1
        rcases List.mem_append.mp h1 with h2 | h2
        · exact Or.inl h2
        · have : c = b.name := by simpa using h2
          exact Or.inr ⟨b, List.mem_cons_self b bs, this.symm, rfl⟩
      · simp only [kahnStep] at h1
        rw [alistGetD_set_ne _ _ _ _ _ (fun he => hp he.symm)] at h1
        exact Or.inl h1
    · rcases h1 with ⟨b0, hb0, hc, hpp⟩
      exact Or.inr ⟨b0, List.mem_cons_of_mem b hb0, hc, hpp⟩

/-- Updating preserves key presence. -/
theorem alistHas_set_mono {α : Type} (m : List (String × α)) (k k2 : String) (v : α)
    (h : alistHas m k = true) : alistHas (alistSet m k2 v) k = true := by
  induction m with
  | nil => simp [alistHas] at h
  | cons p ps ih =>
    simp only [alistHas, List.any_cons, Bool.or_eq_true] at h
    by_cases hp : (p.fst == k2) = true
    · rw [alistSet, if_pos hp]
      simp only [alistHas, List.any_cons, Bool.or_eq_true]
      rcases h with h | h
      · left
        have h1 : p.fst = k2 := by simpa using hp
        have h2 : p.fst = k := by simpa using h
        have h3 : k2 = k := by rw [← h1]; exact h2
        simp [h3]
      · right; exact h
    · rw [alistSet, if_neg hp]
      simp only [alistHas, List.any_cons, Bool.or_eq_true]
      rcases h with h | h
      · left; exact h
      · right
        have := ih h
        simpa [alistHas] using this

/-- Updating a key makes it present. -/
theorem alistHas_set_self {α : Type} (m : List (String × α)) (k : String) (v : α) :
    alistHas (alistSet m k v) k = true := by
  induction m with
  | nil => simp [alistSet, alistHas]
  | cons p ps ih =>
    by_cases hp : (p.fst == k) = true
    · rw [alistSet, if_pos hp]
      simp [alistHas]
    · rw [alistSet, if_neg hp]
      simp only [alistHas, List.any_cons, Bool.or_eq_true]
      right
      simpa [alistHas] using ih

/-- Every branch name of the build input is present in the built branch map. -/
theorem kahnBuild_bm_has (bs : List StackBranch)
    (st : (List (String × List String)) × (List (String × Int)) ×
      (List (String × StackBranch))) (n : String)
    (h : (∃ b ∈ bs, b.name = n) ∨ alistHas st.2.2 n = true) :
    alistHas (bs.foldl kahnStep st).2.2 n = true := by
  induction bs generalizing st with
  | nil =>
    rcases h with ⟨b, hb, _⟩ | h
    · simp at hb
    · simpa using h
  | cons b bs ih =>
    simp only [List.foldl_cons]
    rcases h with ⟨b0, hb0, hbn⟩ | h
    · rcases List.mem_cons.mp hb0 with he | he
      · subst he
        refine ih (kahnStep st b0) (Or.inr ?_)
        simp only [kahnStep]
        exact hbn ▸ alistHas_set_self st.2.2 b0.name b0
      · exact ih (kahnStep st b) (Or.inl ⟨b0, he, hbn⟩)
    · refine ih (kahnStep st b) (Or.inr ?_)
      simp only [kahnStep]
      exact alistHas_set_mono st.2.2 n b.name b h

/-- A name with nonzero in-degree is not in the initial queue. -/
theorem initQueue_not_mem (ch : List (String × List String))
    (deg : List (String × Int)) (c : String) (h : ¬ alistGetD deg c 0 = 0) :
    c ∉ initQueue ch deg := by
  intro hmem
  have := (List.mem_filter.mp hmem).2
  exact h (by simpa using this)

/-- Drain on a queue that sorts to empty returns its inputs. -/
theorem drain_eq_nil (ch : List (String × List String)) (bm : List (String × StackBranch))
    (n : Nat) (deg : List (String × Int)) (queue : List String)
    (sorted : List StackBranch) (hn : queue.length + degSum deg ≤ n)
    (h : sortStrings queue = []) :
    drain ch bm n deg queue sorted hn = (sorted, deg) := by
  rw [drain]
  split
  · rfl
  · rename_i current rest hq
    rw [h] at hq
    cases hq

/-- Drain on a queue that sorts to a head and tail performs one pop; the
fuel-bound proof on the right is arbitrary (proof irrelevance). -/
theorem drain_eq_cons (ch : List (String × List String)) (bm : List (String × StackBranch))
    (m : Nat) (deg : List (String × Int)) (queue : List String)
    (sorted : List StackBranch) (hn : queue.length + degSum deg ≤ m + 1)
    (current : String) (rest : List String)
    (h : sortStrings queue = current :: rest)
    (hn2 : (processChildren (alistGetD ch current []) deg rest).2.length
      + degSum (processChildren (alistGetD ch current []) deg rest).1 ≤ m) :
    drain ch bm (m + 1) deg queue sorted hn
      = drain ch bm m (processChildren (alistGetD ch current []) deg rest).1
          (processChildren (alistGetD ch current []) deg rest).2
          (match alistFind? bm current with
           | some b => sorted ++ [b]
           | none => sorted) hn2 := by
  rw [drain]
  split
  · rename_i hq
    rw [h] at hq
    cases hq
  · rename_i current2 rest2 hq
    rw [h] at hq
    cases hq
    rfl

/-- The drain loop never pops a member of a parent-closed set `S` whose
members all start with in-degree at least one and sit outside the queue: at
the end every member of `S` still has in-degree at least one.  (`S` will be
instantiated with the node set of a cycle.) -/
theorem drain_cycle_deg (ch : List (String × List String))
    (bm : List (String × StackBranch)) (S : List String)
    (hch : ∀ c ∈ S, ∀ p, c ∈ alistGetD ch p [] → p ∈ S) :
    ∀ (n : Nat) (deg : List (String × Int)) (queue : List String)
      (sorted : List StackBranch) (hn : queue.length + degSum deg ≤ n),
      (∀ c ∈ S, 1 ≤ alistGetD deg c 0 ∧ c ∉ queue) →
      ∀ c ∈ S, 1 ≤ alistGetD (drain ch bm n deg queue sorted hn).2 c 0 := by
  intro n
  induction n with
  | zero =>
    intro deg queue sorted hn hinv c hc
    have hq : queue = [] := by
      cases queue with
      | nil => rfl
      | cons x xs => simp at hn
    subst hq
    rw [drain_eq_nil _ _ _ _ _ _ _ (by rfl)]
    exact (hinv c hc).1
  | succ m ih =>
    intro deg queue sorted hn hinv c hc
    rcases hq : sortStrings queue with _ | ⟨current, rest⟩
    · rw [drain_eq_nil _ _ _ _ _ _ _ hq]
      exact (hinv c hc).1
    · have hlen : queue.length = rest.length + 1 := by
        have := length_sortStrings queue
        rw [hq] at this
        simpa using this.symm
      have hn2 : (processChildren (alistGetD ch current []) deg rest).2.length
          + degSum (processChildren (alistGetD ch current []) deg rest).1 ≤ m := by
        have := processChildren_measure (alistGetD ch current []) deg rest
        omega
      rw [drain_eq_cons _ _ _ _ _ _ _ _ _ hq hn2]
      have hcurq : current ∈ queue :=
        (mem_sortStrings current queue).mp (by rw [hq]; exact List.mem_cons_self _ _)
      have hcurS : current ∉ S := fun hmem => (hinv current hmem).2 hcurq
      refine ih _ _ _ hn2 (fun x hx => ⟨?_, ?_⟩) c hc
      · have hxch : x ∉ alistGetD ch current [] := fun hm => hcurS (hch x hx current hm)
        rw [processChildren_get_notmem _ _ _ _ hxch]
        exact (hinv x hx).1
      · intro hxq
        rcases processChildren_mem_queue _ _ _ _ hxq with h1 | h1
        · have : x ∈ queue := (mem_sortStrings x queue).mp
            (by rw [hq]; exact List.mem_cons_of_mem _ h1)
          exact (hinv x hx).2 this
        · exact hcurS (hch x hx current h1)

/-- The chain walk started inside a set that is closed under the parent
lookup and avoids the empty name always fails: the walk cannot break out
(every parent is nonempty) and must revisit a member. -/
theorem chainWalk_cycle (parents : List (String × String)) (dom : List String)
    (hdom : ∀ v ∈ parents.map Prod.snd, v ∈ dom) (S : List String)
    (hclose : ∀ c ∈ S, lookupD parents c ∈ S ∧ lookupD parents c ≠ "") :
    ∀ (n : Nat) (current : String) (seen chain : List String)
      (hn : dom.length - seen.length ≤ n) (hc : current ∈ dom)
      (hnd : seen.Nodup) (hsub : ∀ x ∈ seen, x ∈ dom),
      current ∈ S →
      ∃ e, chainWalk parents dom hdom n current seen chain hn hc hnd hsub = .error e := by
  intro n
  induction n with
  | zero =>
    intro current seen chain hn hc hnd hsub hcur
    rw [chainWalk]
    split
    · exact ⟨_, rfl⟩
    · rename_i hmem
      exfalso
      have h1 : (current :: seen).Nodup := List.nodup_cons.mpr ⟨hmem, hnd⟩
      have h2 : (current :: seen) ⊆ dom := by
        intro x hx
        rcases List.mem_cons.mp hx with h | h
        · exact h ▸ hc
        · exact hsub x h
      have h3 := (List.subperm_of_subset h1 h2).length_le
      simp only [List.length_cons] at h3
      omega
  | succ m ih =>
    intro current seen chain hn hc hnd hsub hcur
    rw [chainWalk]
    split
    · exact ⟨_, rfl⟩
    · rename_i hmem
      split
      · rename_i hp
        exact absurd hp (hclose current hcur).2
      · exact ih (lookupD parents current) _ _ _ _ _ _ (hclose current hcur).1

/-- C9: cycle detection.  A parent-edge set contains a cycle exactly when
there is a nonempty set `S` of nonempty branch names, each carrying a parent
edge whose value lies again in `S` (the nodes of any cycle form such a set,
and any such set contains a cycle, the parent map being a function).  Then
`TopologicalSort` on the derived branch set returns an error, `GetStackChain`
returns an error from every member of `S`, and — independently —
`GetStackChain` returns the empty chain, not an error, for any branch
without a parent edge. -/
theorem cycle_detection_topo_and_chain
    (parents : List (String × String)) (S : List String) (branch : String)
    (hkeys : (parents.map Prod.fst).Nodup)
    (hne : S ≠ [])
    (hS : ∀ c ∈ S, c ≠ "" ∧ c ∈ parents.map Prod.fst ∧ lookupD parents c ∈ S) :
    (∃ e, TopologicalSort (toStackBranches parents) = .error e) ∧
    (∀ b ∈ S, ∃ e, GetStackChain parents b = .error e) ∧
    (lookupD parents branch = "" → GetStackChain parents branch = .ok []) := by
  obtain ⟨c0, hc0⟩ : ∃ c, c ∈ S := by
    cases S with
    | nil => exact absurd rfl hne
    | cons x xs => exact ⟨x, List.mem_cons_self x xs⟩
  have hrecord : ∀ c ∈ S, ∃ b ∈ toStackBranches parents, b.name = c := by
    intro c hc
    obtain ⟨q, hq, hqc⟩ := List.mem_map.mp (hS c hc).2.1
    exact ⟨{ name := q.fst, parent := q.snd }, List.mem_map.mpr ⟨q, hq, rfl⟩, hqc⟩
  have hdeg1 : ∀ c ∈ S,
      1 ≤ alistGetD (kahnBuild (toStackBranches parents)).2.1 c 0 := by
    intro c hc
    exact kahnBuild_deg_ge_one _ ([], [], []) c (hrecord c hc) (by simp [alistGetD])
  have hch : ∀ c ∈ S, ∀ p,
      c ∈ alistGetD (kahnBuild (toStackBranches parents)).1 p [] → p ∈ S := by
    intro c hc p hmem
    rcases kahnBuild_children_sub _ ([], [], []) p c hmem with h0 | ⟨b, hb, hbc, hbp⟩
    · simp [alistGetD] at h0
    · obtain ⟨q, hq, hqe⟩ := List.mem_map.mp hb
      have hqc : q.fst = c := by rw [← hbc, ← hqe]
      have hqp : q.snd = p := by rw [← hbp, ← hqe]
      have hlk : lookupD parents c = p := by
        refine lookupD_eq_of_mem parents c p hkeys ?_
        have hqcp : (c, p) = q := by
          cases q
          simp only at hqc hqp
          rw [hqc, hqp]
        rw [hqcp]
        exact hq
      exact hlk ▸ (hS c hc).2.2
  refine ⟨?_, ?_, ?_⟩
  · -- topological sort fails
    simp only [TopologicalSort]
    split
    · exact ⟨_, rfl⟩
    · rename_i hfi
      exfalso
      have hdrain := drain_cycle_deg (kahnBuild (toStackBranches parents)).1
        (kahnBuild (toStackBranches parents)).2.2 S hch
        ((initQueue (kahnBuild (toStackBranches parents)).1
            (kahnBuild (toStackBranches parents)).2.1).length
          + degSum (kahnBuild (toStackBranches parents)).2.1)
        (kahnBuild (toStackBranches parents)).2.1
        (initQueue (kahnBuild (toStackBranches parents)).1
          (kahnBuild (toStackBranches parents)).2.1)
        [] (by omega)
        (fun c hc => ⟨hdeg1 c hc,
          initQueue_not_mem _ _ c (by have := hdeg1 c hc; omega)⟩)
        c0 hc0
      obtain ⟨p, hpmem, hpk, hpv⟩ := alistGetD_int_pos_mem _ _ hdrain
      have hpred : (decide (0 < p.snd)
          && alistHas (kahnBuild (toStackBranches parents)).2.2 p.fst) = true := by
        have hbm : alistHas (kahnBuild (toStackBranches parents)).2.2 p.fst = true := by
          rw [hpk]
          exact kahnBuild_bm_has _ ([], [], []) c0 (Or.inl (hrecord c0 hc0))
        simp [hbm]
        omega
      have := List.find?_eq_none.mp hfi p hpmem
      exact this hpred
  · -- the chain walk fails from every cycle node
    intro b hb
    have hlb : lookupD parents b ≠ "" := by
      have hmem := (hS b hb).2.2
      exact (hS _ hmem).1
    rw [GetStackChain, if_neg (by simpa using hlb)]
    exact chainWalk_cycle parents _ _ S
      (fun c hc => ⟨(hS c hc).2.2, (hS _ (hS c hc).2.2).1⟩) _ b [] [] _ _ _ _ hb
  · -- no parent edge gives an empty chain
    intro h
    rw [GetStackChain, if_pos (by simpa using h)]

/-- The two-branch cycle of the C9 witness. -/
def cycleParentsW : List (String × String) :=
  [("feature-a", "feature-b"), ("feature-b", "feature-a")]

/-- C9 witness: the concrete two-branch cycle fails both operations, and a
branch without a parent edge gets the empty chain. -/
theorem cycle_detection_topo_and_chain_witness :
    (∃ e, TopologicalSort (toStackBranches cycleParentsW) = .error e) ∧
    (∃ e, GetStackChain cycleParentsW "feature-a" = .error e) ∧
    GetStackChain cycleParentsW "lonely" = .ok [] := by
  have h := cycle_detection_topo_and_chain cycleParentsW ["feature-a", "feature-b"]
    "lonely" (by decide) (by decide) (by decide)
  exact ⟨h.1, h.2.1 "feature-a" (by decide), h.2.2 (by decide)⟩

end Stackinator
